import Mathlib

/-!
Verification of the generation-orchestrator core of the `ai_image_generator`
package (engine.py, state_manager.py, models.py) against its natural-language
specification.  All definitions below are shallow embeddings translated from
the Python source; timestamps and delays are modelled as rationals, the random
number generator and the external collaborators (generation backend, uploader,
`json.load`, `datetime.fromisoformat`) are modelled as explicit oracle
parameters.
-/

/-! ### RateLimiter (engine.py lines 41-78)

`RateLimiter.acquire` runs its check inside `self._lock`, so concurrent calls
from any number of threads are serialized into a sequence of atomic
check-events; each event observes a `time.time()` value, and successive events
observe non-decreasing times.  We embed one execution of the locked loop body
as `acquireCheck` and a whole multi-threaded run as the list of check-event
times, processed in order by `admissionsAux`.  A thread whose check finds the
window full sleeps outside the lock and re-enters the queue of check events,
exactly as the `while True` loop in the source re-checks the whole condition.
-/

structure RateLimiter where
  max_requests : ℕ
  time_window : ℚ

/-- The pruning step `self.requests = [t for t in self.requests if now - t < self.time_window]`. -/
def RateLimiter.prune (rl : RateLimiter) (now : ℚ) (reqs : List ℚ) : List ℚ :=
  reqs.filter (fun t => decide (now - t < rl.time_window))

/-- One execution of the loop body of `RateLimiter.acquire` under `self._lock`:
returns the new `self.requests` list, whether the caller was admitted, and the
`wait_time` computed when it was not (`time_window - (now - oldest) + 0.1`). -/
def RateLimiter.acquireCheck (rl : RateLimiter) (reqs : List ℚ) (now : ℚ) :
    List ℚ × Bool × ℚ :=
  let pruned := rl.prune now reqs
  if pruned.length < rl.max_requests then
    (pruned ++ [now], true, 0)
  else
    (pruned, false, rl.time_window - (now - pruned.headI) + 1 / 10)

/-- Process a sequence of check events (the serialized critical sections of all
concurrently calling threads, identified by their observed `time.time()`
values) and return the list of admission times. -/
def RateLimiter.admissionsAux (rl : RateLimiter) : List ℚ → List ℚ → List ℚ
  | _, [] => []
  | reqs, now :: rest =>
    let r := rl.acquireCheck reqs now
    if r.2.1 then now :: rl.admissionsAux r.1 rest else rl.admissionsAux r.1 rest

/-- Admissions of a whole run starting from the initial empty `self.requests`. -/
def RateLimiter.admissions (rl : RateLimiter) (times : List ℚ) : List ℚ :=
  rl.admissionsAux [] times

/-! ### AssetUploadCache (`GenerationEngine._upload_images`, engine.py lines 164-194)

For each path the source takes `self._upload_lock`, checks
`self._uploaded_urls`, and — still inside the `with self._upload_lock:` block —
calls `self.moss_uploader.upload_batch_sync([path], folder)` and inserts the
result into the two cache dictionaries.  Because every per-path block runs
under the single lock, a concurrent run is an interleaving of these atomic
blocks; we model the run as the global sequence of per-path requests (in the
order their critical sections executed) threaded through the shared cache
state.  Paths are modelled already resolved (`str(path.resolve())`); the
uploader collaborator is a function `String → UploadResult` (a successful
`upload_batch_sync` returns exactly one result per input path,
moss_uploader.py lines 212-231).  The event trace records lock operations,
cache hits and network upload calls so that lock-discipline claims can be
stated.
-/

structure UploadResult where
  url : String
  moss_id : String

structure UpState where
  uploaded_urls : List (String × String)
  uploaded_moss_ids : List (String × String)
  netCalls : List String

inductive UpEvent where
  | lockAcquire
  | lockRelease
  | cacheHit (key : String)
  | netUpload (key : String)
  deriving DecidableEq, Repr

/-- Dictionary lookup `key in d` / `d[key]` for the cache dictionaries. -/
def alistLookup (m : List (String × String)) (k : String) : Option String :=
  (m.find? (fun p => p.1 == k)).map (·.2)

/-- The body of `_upload_images`: for each requested key, one critical section
that either hits the cache or uploads and inserts.  Returns the final state,
the `(key, url)` pairs appended to `urls` in order, and the event trace. -/
def uploadImagesAux (uploader : String → UploadResult) :
    UpState → List String → UpState × List (String × String) × List UpEvent
  | st, [] => (st, [], [])
  | st, key :: rest =>
    match alistLookup st.uploaded_urls key with
    | some url =>
      let r := uploadImagesAux uploader st rest
      (r.1, (key, url) :: r.2.1,
        [UpEvent.lockAcquire, UpEvent.cacheHit key, UpEvent.lockRelease] ++ r.2.2)
    | none =>
      let res := uploader key
      let st1 : UpState :=
        { uploaded_urls := st.uploaded_urls ++ [(key, res.url)]
          uploaded_moss_ids := st.uploaded_moss_ids ++ [(key, res.moss_id)]
          netCalls := st.netCalls ++ [key] }
      let r := uploadImagesAux uploader st1 rest
      (r.1, (key, res.url) :: r.2.1,
        [UpEvent.lockAcquire, UpEvent.netUpload key, UpEvent.lockRelease] ++ r.2.2)

/-- A whole run of upload requests starting from the engine's empty caches. -/
def upload_images (uploader : String → UploadResult) (keys : List String) :
    UpState × List (String × String) × List UpEvent :=
  uploadImagesAux uploader ⟨[], [], []⟩ keys

/-- Number of `_upload_lock` acquisitions minus releases among the first `i`
events: positive iff the lock is held just after event `i - 1`, i.e. event
`i - 1` happened inside a critical section that is still open at position `i`. -/
def lockDepthAt (evs : List UpEvent) (i : ℕ) : ℤ :=
  ((evs.take i).count UpEvent.lockAcquire : ℤ) - ((evs.take i).count UpEvent.lockRelease : ℤ)

/-! ### StateManager (state_manager.py) and RunState (models.py lines 342-370)

`StateManager.load_state` (state_manager.py lines 35-58) returns `None` when
the state file does not exist; it calls `json.load`, converting a
`json.JSONDecodeError` into a raised `GeneratorError`, and any other exception
(in particular an exception raised by `RunState.from_dict` on well-formed JSON
that does not describe a valid `RunState`) into `return None`.  We model the
observable outcome of `open` + `json.load` as `Option (Except Unit Json)`:
`none` = file absent, `some (.error ())` = file exists but `json.load` raises
`JSONDecodeError`, `some (.ok j)` = file parses to the JSON value `j`.
`datetime.fromisoformat` is an oracle `String → Option ℤ` (`none` = raises).
-/

inductive Json where
  | null
  | bool (b : Bool)
  | num (n : ℤ)
  | str (s : String)
  | arr (elems : List Json)
  | obj (fields : List (String × Json))

/-- `data[k]` / `data.get(k)` on a parsed JSON value: a value for string key
`k` when `data` is an object, otherwise no value (Python raises `TypeError` or
`KeyError`, both caught by `load_state`'s generic handler). -/
def Json.get? (j : Json) (k : String) : Option Json :=
  match j with
  | .obj fields => (fields.find? (fun p => p.1 == k)).map (·.2)
  | _ => none

/-- Python `len(x)` on a JSON-derived value: defined for `str`, list and dict
values, raises `TypeError` (modelled `none`) otherwise.  `load_state` calls
`len(self._state.completed_groups)` inside its `try` block. -/
def Json.pyLen : Json → Option ℕ
  | .str s => some s.length
  | .arr elems => some elems.length
  | .obj fields => some fields.length
  | _ => none

/-- The in-memory `RunState` produced by `RunState.from_dict`
(models.py lines 361-370).  `completed_groups` is stored exactly as found in
the JSON (`data.get("completed_groups", {})` performs no conversion, so its
keys are the JSON object's string keys). -/
structure RunStateL where
  template_config_path : Json
  run_dir : String
  started_at : ℤ
  completed_groups : Json
  current_group : Json

/-- `RunState.from_dict` (models.py lines 361-370): `none` models the method
raising (`KeyError` on a missing required key, `TypeError` from
`Path(run_dir)` on a non-string, `TypeError`/`ValueError` from
`datetime.fromisoformat`). -/
def RunState.from_dict (isoParse : String → Option ℤ) (data : Json) : Option RunStateL :=
  match data.get? "template_config_path" with
  | none => none
  | some tcp =>
    match data.get? "run_dir" with
    | none => none
    | some rd =>
      match rd with
      | .str rds =>
        match data.get? "started_at" with
        | none => none
        | some sa =>
          match sa with
          | .str sas =>
            match isoParse sas with
            | none => none
            | some dt =>
              some { template_config_path := tcp
                     run_dir := rds
                     started_at := dt
                     completed_groups := (data.get? "completed_groups").getD (Json.obj [])
                     current_group := (data.get? "current_group").getD Json.null }
          | _ => none
      | _ => none

/-- `StateManager.load_state` (state_manager.py lines 35-58).
`.error msg` models `raise GeneratorError(msg)`; `.ok none` models
`return None`; `.ok (some st)` models a successfully loaded state. -/
def StateManager.load_state (isoParse : String → Option ℤ)
    (file : Option (Except Unit Json)) : Except String (Option RunStateL) :=
  match file with
  | none => .ok none
  | some (.error _) => .error "state file corrupted, cannot recover"
  | some (.ok data) =>
    match RunState.from_dict isoParse data with
    | none => .ok none
    | some st =>
      match st.completed_groups.pyLen with
      | none => .ok none
      | some _ => .ok (some st)

/-! ### Resume pipeline (cli.py lines 589-646, engine.py lines 679-743)

The CLI resume path loads the persisted state, stores it into the engine's
`StateManager` and calls `GenerationEngine.run`.  Inside `run`, before the
skip check, the engine calls `self.state_manager.init_state(...)`
(engine.py line 683), and `init_state` (state_manager.py lines 76-95)
unconditionally replaces `self._state` with a fresh `RunState` whose
`completed_groups` is `{}`.  The subsequent loop (engine.py lines 721-731)
collects `pending_groups` by filtering `range(group_count)` with
`self.state_manager.is_group_complete`.

A Python dict key is either the `int` used by `mark_group_complete`
(state_manager.py line 109) or the string produced by the JSON round-trip
(`json.dump` writes int keys as strings and `RunState.from_dict` keeps them
as strings), so we model keys as a sum type.
-/

inductive PyKey where
  | int (n : ℤ)
  | str (s : String)
  deriving DecidableEq, Repr

/-- The `completed_groups` keys of a state loaded by `RunState.from_dict`:
JSON object keys are strings. -/
def loadedCompletedKeys (ks : List String) : List PyKey :=
  ks.map PyKey.str

/-- `StateManager.init_state` (state_manager.py lines 76-95): the fresh state's
`completed_groups` is the empty dict. -/
def StateManager.init_state_keys : List PyKey := []

/-- `StateManager.is_group_complete` (state_manager.py lines 158-172):
`group_index in self._state.completed_groups` with the Python `int`
`group_index`; `False` when `self._state` is `None`. -/
def StateManager.is_group_complete (state : Option (List PyKey)) (group_index : ℕ) : Bool :=
  match state with
  | none => false
  | some keys => keys.contains (PyKey.int group_index)

/-- The `pending_groups` indices computed by `GenerationEngine.run`
(engine.py lines 679-731) when the engine starts with `self._state` holding
the loaded state `loaded`: `run` first calls `init_state` (line 683), which
replaces the state, and only then filters on `is_group_complete`. -/
def run_pending_groups (loaded : Option (List PyKey)) (group_count : ℕ) : List ℕ :=
  let _ := loaded
  let stateAfterInit := some StateManager.init_state_keys
  (List.range group_count).filter
    (fun i => ! StateManager.is_group_complete stateAfterInit i)

/-- `RunResult.completed_groups` as computed at engine.py line 809:
`len(group_results)`, the number of groups executed (successfully) in this
run; skipped groups are not counted. -/
def runResult_completed_groups (executed_group_results : List ℕ) : ℕ :=
  executed_group_results.length

/-! ### Scene-mode prompt allocation (`_allocate_scene_prompts`, engine.py lines 253-317)

`random.choice(seq)` is modelled by an oracle `rnd : ℕ → ℕ` indexed by a
counter of `random.choice` calls made so far; `pychoice l n` picks the
`n % len(l)`-th element (any element of a nonempty list is reachable for some
oracle, and every oracle picks an element of the list, which is all the
proofs use).  `specified` is the already-resolved list of user-specified
prompts (lines 266-278; the claims below concern the no-specified-prompts
case).  A `PromptItem` is identified by its `id` exactly as the source is
(`used_prompts` stores ids, all comparisons are on `p.id`).
-/

structure PromptItem where
  id : String
  deriving DecidableEq, Repr

def pychoice (l : List PromptItem) (n : ℕ) : Option PromptItem :=
  l.get? (n % l.length)

/-- The `selected`-computation of one iteration of the allocation loop of
`_allocate_scene_prompts` (engine.py lines 284-305), for a group beyond the
user-specified prompts: pick from the unused pool avoiding the previous
group's id when possible, falling back to the whole pool once exhausted.
Returns the selection together with the updated `random.choice` counter. -/
def sceneSelect (prompts : List PromptItem) (rnd : ℕ → ℕ) (cnt : ℕ)
    (used : List String) (previous : Option PromptItem) : Option PromptItem × ℕ :=
  let available := prompts.filter (fun p => ! used.contains p.id)
  if available.isEmpty then
    match previous with
    | some prev =>
      if prompts.length > 1 then
        let different := prompts.filter (fun p => p.id != prev.id)
        if different.isEmpty then (prompts.get? 0, cnt)
        else (pychoice different (rnd cnt), cnt + 1)
      else
        if prompts.isEmpty then (none, cnt) else (pychoice prompts (rnd cnt), cnt + 1)
    | none =>
      if prompts.isEmpty then (none, cnt) else (pychoice prompts (rnd cnt), cnt + 1)
  else
    match previous with
    | some prev =>
      let different := available.filter (fun p => p.id != prev.id)
      if different.isEmpty then (pychoice available (rnd cnt), cnt + 1)
      else (pychoice different (rnd cnt), cnt + 1)
    | none => (pychoice available (rnd cnt), cnt + 1)

/-- The loop of `_allocate_scene_prompts` (engine.py lines 281-315), iterated
`g` more times.  `cnt` counts `random.choice` calls, `used` is
`used_prompts`, `acc` is `result` in reverse; the final `elif prompts:` /
`else:` branches (lines 310-315, reachable only when `selected` is `None`)
are translated verbatim. -/
def allocSceneAux (prompts specified : List PromptItem) (rnd : ℕ → ℕ) :
    ℕ → ℕ → ℕ → List String → List (Option PromptItem) → List (Option PromptItem)
  | 0, _, _, _, acc => acc.reverse
  | g + 1, i, cnt, used, acc =>
    let previous : Option PromptItem := acc.headI
    let chosen : Option PromptItem × ℕ :=
      if h : i < specified.length then (some (specified.get ⟨i, h⟩), cnt)
      else sceneSelect prompts rnd cnt used previous
    match chosen.1 with
    | some s =>
      allocSceneAux prompts specified rnd g (i + 1) chosen.2 (s.id :: used) (some s :: acc)
    | none =>
      if prompts.isEmpty then
        allocSceneAux prompts specified rnd g (i + 1) chosen.2 used (none :: acc)
      else
        let availElse :=
          match previous with
          | some prev => prompts.filter (fun p => p.id != prev.id)
          | none => prompts
        let app : Option PromptItem :=
          if availElse.isEmpty then prompts.get? 0 else pychoice availElse (rnd chosen.2)
        allocSceneAux prompts specified rnd g (i + 1) (chosen.2 + 1) used (app :: acc)

/-- `_allocate_scene_prompts(prompts, group_count)` with the user-specified
prompts already resolved to `specified`. -/
def allocate_scene_prompts (prompts specified : List PromptItem) (rnd : ℕ → ℕ)
    (group_count : ℕ) : List (Option PromptItem) :=
  allocSceneAux prompts specified rnd group_count 0 0 [] []

/-! ### Reference allocation (`_allocate_references_for_groups`, engine.py lines 353-412)

Paths are modelled as strings (the source compares `str(r) != str(specified_image)`).
`math.ceil(group_count * specified_coverage / 100)` is the exact rational
ceiling (for the integer magnitudes involved, IEEE division followed by
`math.ceil` agrees with the exact ceiling).
-/

/-- `coverage_groups` (engine.py lines 382-385, identically lines 709-713 for
product images): `max(1, math.ceil(group_count * specified_coverage / 100))`
when a specified image is present and `specified_coverage > 0`, else `0`. -/
def coverageGroups (specified : Option String) (group_count specified_coverage : ℕ) : ℕ :=
  if specified.isSome ∧ 0 < specified_coverage then
    max 1 (Int.toNat ⌈(group_count * specified_coverage : ℚ) / 100⌉)
  else 0

/-- The allocation loop of `_allocate_references_for_groups`
(engine.py lines 393-412): `refIdx` is `ref_index`, `g` counts remaining
groups, `i` is the group index. -/
def allocRefsAux (ordered : List String) (specified : Option String) (cov : ℕ) :
    ℕ → ℕ → ℕ → List (Option String) → List (Option String)
  | 0, _, _, acc => acc.reverse
  | g + 1, i, refIdx, acc =>
    if specified.isSome ∧ i < cov then
      allocRefsAux ordered specified cov g (i + 1) refIdx (specified :: acc)
    else
      if ordered.isEmpty then
        allocRefsAux ordered specified cov g (i + 1) refIdx (specified :: acc)
      else
        allocRefsAux ordered specified cov g (i + 1) (refIdx + 1)
          (ordered.get? (refIdx % ordered.length) :: acc)

/-- `_allocate_references_for_groups(reference_images, group_count,
specified_image, specified_coverage)`. -/
def allocate_references_for_groups (reference_images : List String)
    (group_count : ℕ) (specified_image : Option String)
    (specified_coverage : ℕ) : List (Option String) :=
  let cov := coverageGroups specified_image group_count specified_coverage
  let ordered :=
    match specified_image with
    | some s => reference_images.filter (fun r => r != s)
    | none => reference_images
  allocRefsAux ordered specified_image cov group_count 0 0 []

/-! ### Retry loop (`generate_single` inside `_run_concurrent_generation_v2`,
engine.py lines 1177-1273)

The attempt loop `for attempt in range(max_retries + 1)` with
`max_retries = 6`, `retry_delay_base = 3`, `retry_delay_max = 120`
(lines 1178-1180).  The backend call `self.api_client.generate_image` is an
oracle `ℕ → Except String String` giving, for each attempt number, either the
task id of a successful generation or the string form of the raised exception
(the `except Exception as e` handler works on `str(e)`).  `random.uniform` is
an oracle `ℚ → ℚ → ℚ`.  A run is summarised by the number of backend calls
made, the list of back-off delays slept (in order), and the final value
returned by the task (`ImageResult(success=True, task_id=...)` or
`ImageResult(success=False, error=str(last_error))`) — the function always
returns a value; no exception escapes the executor.
-/

/-- `s.lower()`. -/
def lowerStr (s : String) : String :=
  String.mk (s.data.map Char.toLower)

/-- Does `hay` start with `needle` (on character lists)? -/
def charsLeadWith : List Char → List Char → Bool
  | _, [] => true
  | [], _ :: _ => false
  | c :: cs, d :: ds => c == d && charsLeadWith cs ds

/-- Python's substring test `needle in hay` on character lists. -/
def charsContain : List Char → List Char → Bool
  | [], needle => needle.isEmpty
  | c :: cs, needle => charsLeadWith (c :: cs) needle || charsContain cs needle

/-- Python `needle in hay` on strings. -/
def pyIn (needle hay : String) : Bool :=
  charsContain hay.data needle.data

/-- The retryability classification of engine.py lines 1234-1246, verbatim:
substring tests on `str(e)` (case-folded for the textual signals). -/
def is_retryable (error_str : String) : Bool :=
  pyIn "429" error_str ||
  pyIn "too high" (lowerStr error_str) ||
  pyIn "timeout" (lowerStr error_str) ||
  pyIn "timed out" (lowerStr error_str) ||
  pyIn "500" error_str ||
  pyIn "502" error_str ||
  pyIn "503" error_str ||
  pyIn "520" error_str ||
  pyIn "522" error_str ||
  pyIn "524" error_str ||
  pyIn "fail" (lowerStr error_str)

inductive GenOutcome where
  | success (task_id : String)
  | failure (error : String)
  deriving DecidableEq, Repr

structure GenTrace where
  calls : ℕ
  sleeps : List ℚ
  outcome : GenOutcome
  deriving DecidableEq, Repr

/-- `retry_delay_base` (engine.py line 1179). -/
def retry_delay_base : ℚ := 3

/-- `retry_delay_max` (engine.py line 1180). -/
def retry_delay_max : ℚ := 120

/-- `max_retries` (engine.py line 1178). -/
def max_retries : ℕ := 6

/-- The attempt loop of `generate_single` (engine.py lines 1197-1259):
`attempt` is the loop index, `fuel` the number of remaining iterations
(`max_retries + 1 - attempt` at the top call), `lastDelay` the `last_delay`
variable (initialised to `retry_delay_base`), `lastErr` the current
`last_error`.  On a retryable failure with `attempt < max_retries` the loop
sleeps `min(retry_delay_max, uniform(retry_delay_base, last_delay * 3))`
(line 1252), records it, sets `last_delay = delay` and continues; otherwise it
breaks and the task returns the failed `ImageResult` carrying
`str(last_error)` (lines 1262-1270). -/
def genAux (backend : ℕ → Except String String) (unif : ℚ → ℚ → ℚ) :
    ℕ → ℕ → ℚ → String → GenTrace
  | _, 0, _, lastErr => ⟨0, [], GenOutcome.failure lastErr⟩
  | attempt, fuel + 1, lastDelay, _ =>
    match backend attempt with
    | .ok task_id => ⟨1, [], GenOutcome.success task_id⟩
    | .error e =>
      if is_retryable e ∧ attempt < max_retries then
        let delay := min retry_delay_max (unif retry_delay_base (lastDelay * 3))
        let t := genAux backend unif (attempt + 1) fuel delay e
        ⟨t.calls + 1, delay :: t.sleeps, t.outcome⟩
      else ⟨1, [], GenOutcome.failure e⟩

/-- One full execution of `generate_single` for a task. -/
def generate_single (backend : ℕ → Except String String) (unif : ℚ → ℚ → ℚ) : GenTrace :=
  genAux backend unif 0 (max_retries + 1) retry_delay_base ""

/-- The decorrelated-jitter recurrence of the spec: each successive delay is
`min(cap, uniform(base, previous * 3))` with `previous` starting at `base`
and updated to the delay just chosen. -/
def jitterChain (unif : ℚ → ℚ → ℚ) : ℚ → List ℚ → Prop
  | _, [] => True
  | prev, d :: ds =>
    d = min retry_delay_max (unif retry_delay_base (prev * 3)) ∧ jitterChain unif d ds

/-! ## Theorems -/

/-! ### Retry loop: helper lemmas -/

lemma genAux_calls_le (backend : ℕ → Except String String) (unif : ℚ → ℚ → ℚ) :
    ∀ (fuel attempt : ℕ) (ld : ℚ) (le' : String),
      (genAux backend unif attempt fuel ld le').calls ≤ fuel := by
  intro fuel
  induction fuel with
  | zero => intro attempt ld le'; simp [genAux]
  | succ n ih =>
    intro attempt ld le'
    cases hb : backend attempt with
    | ok tid => simp [genAux, hb]
    | error e =>
      by_cases hr : is_retryable e = true ∧ attempt < max_retries
      · simp only [genAux, hb, if_pos hr]
        have := ih (attempt + 1) (min retry_delay_max (unif retry_delay_base (ld * 3))) e
        omega
      · simp only [genAux, hb, if_neg hr]
        omega

lemma genAux_calls_pos (backend : ℕ → Except String String) (unif : ℚ → ℚ → ℚ)
    (fuel attempt : ℕ) (ld : ℚ) (le' : String) (hf : 1 ≤ fuel) :
    1 ≤ (genAux backend unif attempt fuel ld le').calls := by
  obtain ⟨n, rfl⟩ : ∃ n, fuel = n + 1 := ⟨fuel - 1, by omega⟩
  cases hb : backend attempt with
  | ok tid => simp [genAux, hb]
  | error e =>
    by_cases hr : is_retryable e = true ∧ attempt < max_retries
    · simp only [genAux, hb, if_pos hr]
      omega
    · simp only [genAux, hb, if_neg hr]
      omega

lemma genAux_outcome_cases (backend : ℕ → Except String String) (unif : ℚ → ℚ → ℚ)
    (fuel attempt : ℕ) (ld : ℚ) (le' : String) :
    (∃ tid, (genAux backend unif attempt fuel ld le').outcome = GenOutcome.success tid) ∨
    (∃ err, (genAux backend unif attempt fuel ld le').outcome = GenOutcome.failure err) := by
  cases h : (genAux backend unif attempt fuel ld le').outcome with
  | success tid => exact Or.inl ⟨tid, rfl⟩
  | failure err => exact Or.inr ⟨err, rfl⟩

/-- On a failure outcome, the reported error is the error of the last backend
call made (or the incoming `last_error` if no call was made). -/
lemma genAux_failure_src (backend : ℕ → Except String String) (unif : ℚ → ℚ → ℚ) :
    ∀ (fuel attempt : ℕ) (ld : ℚ) (le' : String) (err : String),
      (genAux backend unif attempt fuel ld le').outcome = GenOutcome.failure err →
      backend (attempt + (genAux backend unif attempt fuel ld le').calls - 1) =
          Except.error err ∨
        ((genAux backend unif attempt fuel ld le').calls = 0 ∧ err = le') := by
  intro fuel
  induction fuel with
  | zero =>
    intro attempt ld le' err h
    have hle : le' = err := by simpa [genAux] using h
    exact Or.inr ⟨rfl, hle.symm⟩
  | succ n ih =>
    intro attempt ld le' err h
    cases hb : backend attempt with
    | ok tid => simp [genAux, hb] at h
    | error e =>
      by_cases hr : is_retryable e = true ∧ attempt < max_retries
      · simp only [genAux, hb, if_pos hr] at h ⊢
        rcases ih (attempt + 1) (min retry_delay_max (unif retry_delay_base (ld * 3))) e err h with
          hsrc | ⟨hz, rfl⟩
        · left
          have harith : attempt + 1 +
              (genAux backend unif (attempt + 1) n
                (min retry_delay_max (unif retry_delay_base (ld * 3))) e).calls - 1 =
              attempt +
              ((genAux backend unif (attempt + 1) n
                (min retry_delay_max (unif retry_delay_base (ld * 3))) e).calls + 1) - 1 := by
            omega
          rw [← harith]
          exact hsrc
        · left
          simp only [hz]
          simpa using hb
      · simp only [genAux, hb, if_neg hr] at h ⊢
        cases h
        simpa using hb

/-- Every delay recorded in the trace is bounded by `retry_delay_max`. -/
lemma genAux_sleeps_le_cap (backend : ℕ → Except String String) (unif : ℚ → ℚ → ℚ) :
    ∀ (fuel attempt : ℕ) (ld : ℚ) (le' : String) (d : ℚ),
      d ∈ (genAux backend unif attempt fuel ld le').sleeps → d ≤ retry_delay_max := by
  intro fuel
  induction fuel with
  | zero => intro attempt ld le' d hd; simp [genAux] at hd
  | succ n ih =>
    intro attempt ld le' d hd
    cases hb : backend attempt with
    | ok tid => simp [genAux, hb] at hd
    | error e =>
      by_cases hr : is_retryable e = true ∧ attempt < max_retries
      · simp only [genAux, hb, if_pos hr, List.mem_cons] at hd
        rcases hd with rfl | hd
        · exact min_le_left _ _
        · exact ih _ _ _ d hd
      · simp [genAux, hb, if_neg hr] at hd

lemma genAux_jitter (backend : ℕ → Except String String) (unif : ℚ → ℚ → ℚ) :
    ∀ (fuel attempt : ℕ) (ld : ℚ) (le' : String),
      jitterChain unif ld (genAux backend unif attempt fuel ld le').sleeps := by
  intro fuel
  induction fuel with
  | zero => intro attempt ld le'; simp [genAux, jitterChain]
  | succ n ih =>
    intro attempt ld le'
    cases hb : backend attempt with
    | ok tid => simp [genAux, hb, jitterChain]
    | error e =>
      by_cases hr : is_retryable e = true ∧ attempt < max_retries
      · simp only [genAux, hb, if_pos hr]
        exact ⟨rfl, ih _ _ _⟩
      · simp [genAux, hb, if_neg hr, jitterChain]

/-- C10: for every behaviour of the backend and of the jitter oracle, the task
loop `generate_single` performs at least one and at most
`max_retries + 1 = 7` backend generation attempts, and always terminates in a
result value — either a success or a failure `ImageResult`. -/
theorem generate_single_bounded_attempts (backend : ℕ → Except String String)
    (unif : ℚ → ℚ → ℚ) :
    1 ≤ (generate_single backend unif).calls ∧
    (generate_single backend unif).calls ≤ max_retries + 1 ∧
    ((∃ tid, (generate_single backend unif).outcome = GenOutcome.success tid) ∨
      (∃ err, (generate_single backend unif).outcome = GenOutcome.failure err)) :=
  ⟨genAux_calls_pos backend unif (max_retries + 1) 0 retry_delay_base "" (by omega),
   genAux_calls_le backend unif (max_retries + 1) 0 retry_delay_base "",
   genAux_outcome_cases backend unif (max_retries + 1) 0 retry_delay_base ""⟩

/-- C6: for every backend behaviour and every outcome of the random draws,
the sequence of back-off delays slept by `generate_single` satisfies the
decorrelated-jitter recurrence — each delay is
`min(retry_delay_max, uniform(retry_delay_base, previous * 3))` with
`previous` starting at `retry_delay_base` and updated to the delay just
chosen — and consequently no delay ever exceeds `retry_delay_max`. -/
theorem generate_single_decorrelated_jitter (backend : ℕ → Except String String)
    (unif : ℚ → ℚ → ℚ) :
    jitterChain unif retry_delay_base (generate_single backend unif).sleeps ∧
    ∀ d ∈ (generate_single backend unif).sleeps, d ≤ retry_delay_max :=
  ⟨genAux_jitter backend unif (max_retries + 1) 0 retry_delay_base "",
   fun d hd => genAux_sleeps_le_cap backend unif (max_retries + 1) 0 retry_delay_base "" d hd⟩

/-- Witness for C6 at a backend that always reports HTTP 429 and the jitter
oracle returning the lower bound of the range. -/
theorem generate_single_decorrelated_jitter_witness :
    (3 : ℚ) ∈ (generate_single (fun _ => Except.error "429") (fun a _ => a)).sleeps ∧
    (3 : ℚ) ≤ retry_delay_max := by
  have hmem : (3 : ℚ) ∈ (generate_single (fun _ => Except.error "429") (fun a _ => a)).sleeps := by
    decide
  exact ⟨hmem,
    (generate_single_decorrelated_jitter (fun _ => Except.error "429") (fun a _ => a)).2 3 hmem⟩

/-- C5: at any reachable state of the attempt loop (`hfuel` says `fuel + 1`
iterations remain out of `max_retries + 1`) whose current backend call fails
with error string `e`:
a further attempt is made (and a back-off sleep occurs) if and only if the
error is classified retryable by `is_retryable` — the substring tests for
HTTP 429/500/502/503/520/522/524, rate-too-high, timeout/timed-out and the
backend "fail" signal — and the attempt counter has not reached
`max_retries`; a non-retryable error triggers no sleep and makes the task
yield the failed result carrying that error; every failure outcome carries
verbatim the error of the last backend call made; and the loop always
returns a result value (success or failure), never an escaping exception. -/
theorem generate_single_retry_iff (backend : ℕ → Except String String)
    (unif : ℚ → ℚ → ℚ) (attempt fuel : ℕ) (ld : ℚ) (le' : String) (e : String)
    (hfuel : attempt + (fuel + 1) = max_retries + 1)
    (hcall : backend attempt = Except.error e) :
    (2 ≤ (genAux backend unif attempt (fuel + 1) ld le').calls ↔
        (is_retryable e = true ∧ attempt < max_retries)) ∧
    ((genAux backend unif attempt (fuel + 1) ld le').sleeps ≠ [] ↔
        (is_retryable e = true ∧ attempt < max_retries)) ∧
    (is_retryable e = false →
        (genAux backend unif attempt (fuel + 1) ld le').sleeps = [] ∧
        (genAux backend unif attempt (fuel + 1) ld le').outcome = GenOutcome.failure e) ∧
    (∀ err, (genAux backend unif attempt (fuel + 1) ld le').outcome = GenOutcome.failure err →
        backend (attempt + (genAux backend unif attempt (fuel + 1) ld le').calls - 1) =
          Except.error err) ∧
    ((∃ tid, (genAux backend unif attempt (fuel + 1) ld le').outcome = GenOutcome.success tid) ∨
      (∃ err, (genAux backend unif attempt (fuel + 1) ld le').outcome = GenOutcome.failure err)) := by
  refine ⟨?_, ?_, ?_, ?_, genAux_outcome_cases backend unif (fuel + 1) attempt ld le'⟩
  · constructor
    · intro h2
      by_contra hr
      simp only [genAux, hcall, if_neg hr] at h2
      omega
    · intro hr
      have hfe : 1 ≤ fuel := by
        have := hr.2
        simp only [max_retries] at this hfuel
        omega
      simp only [genAux, hcall, if_pos hr]
      have := genAux_calls_pos backend unif fuel (attempt + 1)
        (min retry_delay_max (unif retry_delay_base (ld * 3))) e hfe
      omega
  · constructor
    · intro hne
      by_contra hr
      simp only [genAux, hcall, if_neg hr] at hne
      exact hne rfl
    · intro hr
      simp only [genAux, hcall, if_pos hr]
      exact List.cons_ne_nil _ _
  · intro hnr
    have hr : ¬ (is_retryable e = true ∧ attempt < max_retries) := by
      intro h
      rw [hnr] at h
      exact Bool.false_ne_true h.1
    simp [genAux, hcall, if_neg hr]
  · intro err hout
    rcases genAux_failure_src backend unif (fuel + 1) attempt ld le' err hout with hsrc | ⟨hz, _⟩
    · exact hsrc
    · exfalso
      have := genAux_calls_pos backend unif (fuel + 1) attempt ld le' (by omega)
      omega

/-- Witness for C5: attempt 0 fails with an HTTP 429 error and the loop
retries (a second backend call is made and a sleep is recorded), while with a
non-retryable error the task returns the failed result with no sleep. -/
theorem generate_single_retry_iff_witness :
    2 ≤ (genAux (fun n => if n == 0 then Except.error "429" else Except.ok "tid")
        (fun a _ => a) 0 (6 + 1) 3 "").calls ∧
    ((genAux (fun _ => Except.error "wrong api key") (fun a _ => a) 0 (6 + 1) 3 "").sleeps = []
      ∧ (genAux (fun _ => Except.error "wrong api key") (fun a _ => a) 0 (6 + 1) 3 "").outcome =
        GenOutcome.failure "wrong api key") := by
  constructor
  · exact (generate_single_retry_iff
      (fun n => if n == 0 then Except.error "429" else Except.ok "tid")
      (fun a _ => a) 0 6 3 "" "429" rfl rfl).1.mpr ⟨by decide, by decide⟩
  · exact (generate_single_retry_iff
      (fun _ => Except.error "wrong api key")
      (fun a _ => a) 0 6 3 "" "wrong api key" rfl rfl).2.2.1 (by decide)

/-- C1 (code bug): on resume, the loaded state records groups 0-2 complete
(as the string keys produced by the JSON round-trip), yet the pending-group
computation of `GenerationEngine.run` re-executes all five groups of a
5-group run: `run` replaces the loaded state with a fresh empty one via
`init_state` (engine.py line 683) before the `is_group_complete` filter
(line 723), and even against the loaded state itself `is_group_complete`
tests membership of the Python `int` index among string keys, which never
holds.  Moreover `RunResult.completed_groups` is `len(group_results)`
(engine.py line 809), so even the intended resume executing only groups 3-4
would report 2, not 5. -/
theorem run_resume_skips_no_completed_group :
    run_pending_groups (some (loadedCompletedKeys ["0", "1", "2"])) 5 = [0, 1, 2, 3, 4] ∧
    StateManager.is_group_complete (some (loadedCompletedKeys ["0", "1", "2"])) 0 = false ∧
    runResult_completed_groups [3, 4] = 2 := by
  refine ⟨?_, ?_, rfl⟩ <;> rfl

/-- C2 counterexample: the file exists and holds the well-formed JSON value
`{}` — which `RunState.from_dict` cannot turn into a `RunState`
(`KeyError: template_config_path`, second conjunct) — yet `load_state`
returns `None` (first conjunct), the same answer as for an absent file
(third conjunct), instead of raising. -/
theorem load_state_invalid_state_not_fatal :
    StateManager.load_state (fun _ => some 0) (some (Except.ok (Json.obj []))) =
      Except.ok none ∧
    RunState.from_dict (fun _ => some 0) (Json.obj []) = none ∧
    StateManager.load_state (fun _ => some 0) none = Except.ok none := by
  refine ⟨rfl, rfl, rfl⟩

/-- C2 (amended): `load_state` raises (a fatal `GeneratorError`) exactly when
the state file exists but is not valid JSON; it returns `None` exactly when
the file is absent or when the file parses as JSON but cannot be converted to
a valid `RunState` (`from_dict` raises, or the stored `completed_groups`
value has no `len()`). -/
theorem load_state_fatal_iff_invalid_json (isoParse : String → Option ℤ)
    (file : Option (Except Unit Json)) :
    ((∃ msg, StateManager.load_state isoParse file = Except.error msg) ↔
      file = some (Except.error ())) ∧
    (StateManager.load_state isoParse file = Except.ok none ↔
      (file = none ∨ ∃ j, file = some (Except.ok j) ∧
        (RunState.from_dict isoParse j = none ∨
          ∃ st, RunState.from_dict isoParse j = some st ∧
            st.completed_groups.pyLen = none))) := by
  constructor
  · constructor
    · rintro ⟨msg, hmsg⟩
      match file with
      | none => simp [StateManager.load_state] at hmsg
      | some (Except.error u) => cases u; rfl
      | some (Except.ok j) =>
        cases hfd : RunState.from_dict isoParse j with
        | none => simp [StateManager.load_state, hfd] at hmsg
        | some st =>
          cases hlen : st.completed_groups.pyLen with
          | none => simp [StateManager.load_state, hfd, hlen] at hmsg
          | some n => simp [StateManager.load_state, hfd, hlen] at hmsg
    · rintro rfl
      exact ⟨"state file corrupted, cannot recover", rfl⟩
  · constructor
    · intro h
      match file with
      | none => exact Or.inl rfl
      | some (Except.error u) => cases u; cases h
      | some (Except.ok j) =>
        refine Or.inr ⟨j, rfl, ?_⟩
        cases hfd : RunState.from_dict isoParse j with
        | none => exact Or.inl rfl
        | some st =>
          cases hlen : st.completed_groups.pyLen with
          | none => exact Or.inr ⟨st, rfl, hlen⟩
          | some n => simp [StateManager.load_state, hfd, hlen] at h
    · rintro (rfl | ⟨j, rfl, hbad⟩)
      · rfl
      · rcases hbad with hfd | ⟨st, hfd, hlen⟩
        · simp [StateManager.load_state, hfd]
        · simp [StateManager.load_state, hfd, hlen]

/-! ### Coverage allocation lemmas -/

lemma allocRefsAux_shape (ordered : List String) (sp : Option String) (cov : ℕ) :
    ∀ (g i refIdx : ℕ) (acc : List (Option String)), ∃ rest,
      allocRefsAux ordered sp cov g i refIdx acc = acc.reverse ++ rest ∧
      rest.length = g := by
  intro g
  induction g with
  | zero => intro i refIdx acc; exact ⟨[], by simp [allocRefsAux], rfl⟩
  | succ n ih =>
    intro i refIdx acc
    simp only [allocRefsAux]
    by_cases h1 : sp.isSome ∧ i < cov
    · rw [if_pos h1]
      obtain ⟨rest, hrest, hlen⟩ := ih (i + 1) refIdx (sp :: acc)
      exact ⟨sp :: rest, by rw [hrest]; simp, by simp [hlen]⟩
    · rw [if_neg h1]
      by_cases h2 : ordered.isEmpty
      · rw [if_pos h2]
        obtain ⟨rest, hrest, hlen⟩ := ih (i + 1) refIdx (sp :: acc)
        exact ⟨sp :: rest, by rw [hrest]; simp, by simp [hlen]⟩
      · rw [if_neg h2]
        obtain ⟨rest, hrest, hlen⟩ :=
          ih (i + 1) (refIdx + 1) (ordered.get? (refIdx % ordered.length) :: acc)
        exact ⟨ordered.get? (refIdx % ordered.length) :: rest,
          by rw [hrest]; simp, by simp [hlen]⟩

lemma allocRefsAux_get (ordered : List String) (s : String) (cov : ℕ)
    (hord : ordered ≠ []) :
    ∀ (g i refIdx : ℕ) (acc : List (Option String)) (j : ℕ), j < g →
      ∃ v, (allocRefsAux ordered (some s) cov g i refIdx acc).get? (acc.length + j) = some v ∧
        (i + j < cov → v = some s) ∧
        (¬ i + j < cov → ∃ r ∈ ordered, v = some r) := by
  intro g
  induction g with
  | zero => intro i refIdx acc j hj; omega
  | succ n ih =>
    intro i refIdx acc j hj
    have hempty : ordered.isEmpty = false := by
      cases ordered with
      | nil => exact absurd rfl hord
      | cons a l => rfl
    by_cases h1 : i < cov
    · have hcond : (some s).isSome ∧ i < cov := ⟨rfl, h1⟩
      rw [allocRefsAux, if_pos hcond]
      cases j with
      | zero =>
        obtain ⟨rest, hrest, hlen⟩ := allocRefsAux_shape ordered (some s) cov n (i + 1) refIdx
          (some s :: acc)
        refine ⟨some s, ?_, fun _ => rfl, fun hc => absurd (by omega : i + 0 < cov) hc⟩
        rw [hrest]
        simp only [List.reverse_cons, List.append_assoc]
        rw [List.get?_append_right (by simp)]
        simp
      | succ m =>
        obtain ⟨v, hv, hpin, hnopin⟩ := ih (i + 1) refIdx (some s :: acc) m (by omega)
        refine ⟨v, ?_, ?_, ?_⟩
        · rw [show acc.length + (m + 1) = (some s :: acc).length + m by simp; omega]
          exact hv
        · intro hc; exact hpin (by omega)
        · intro hc; exact hnopin (by omega)
    · have hcond : ¬ ((some s).isSome ∧ i < cov) := fun h => h1 h.2
      rw [allocRefsAux, if_neg hcond, if_neg (by simp [hempty])]
      cases j with
      | zero =>
        obtain ⟨rest, hrest, hlen⟩ := allocRefsAux_shape ordered (some s) cov n (i + 1)
          (refIdx + 1) (ordered.get? (refIdx % ordered.length) :: acc)
        obtain ⟨r, hr⟩ : ∃ r, ordered.get? (refIdx % ordered.length) = some r := by
          have hlt : refIdx % ordered.length < ordered.length :=
            Nat.mod_lt _ (List.length_pos.mpr hord)
          exact ⟨ordered.get ⟨refIdx % ordered.length, hlt⟩, List.get?_eq_get hlt⟩
        refine ⟨some r, ?_, fun hc => by omega, fun _ => ⟨r, List.get?_mem hr, rfl⟩⟩
        rw [hrest]
        simp only [List.reverse_cons, List.append_assoc]
        rw [List.get?_append_right (by simp)]
        simpa using hr
      | succ m =>
        obtain ⟨v, hv, hpin, hnopin⟩ :=
          ih (i + 1) (refIdx + 1) (ordered.get? (refIdx % ordered.length) :: acc) m (by omega)
        refine ⟨v, ?_, ?_, ?_⟩
        · rw [show acc.length + (m + 1) = (ordered.get? (refIdx % ordered.length) :: acc).length + m by simp; omega]
          exact hv
        · intro hc; exact hpin (by omega)
        · intro hc; exact hnopin (by omega)

/-- C8 counterexample: with `coverage_percent = 50` and `group_count = 2` the
coverage count is `ceil(2 * 50 / 100) = 1`, yet when the specified reference
image is the only image in the pool the allocation assigns it to *both*
groups (the `ordered_refs` fallback at engine.py lines 406-408 hands the
specified image to every uncovered group as well), so the specified asset is
not pinned to exactly the first `ceil(group_count * c / 100)` groups. -/
theorem coverage_pin_not_exact_single_reference :
    coverageGroups (some "a") 2 50 = 1 ∧
    allocate_references_for_groups ["a"] 2 (some "a") 50 = [some "a", some "a"] := by
  have h : coverageGroups (some "a") 2 50 = 1 := by
    simp only [coverageGroups]; norm_num
  refine ⟨h, ?_⟩
  simp only [allocate_references_for_groups, h]
  rfl

/-- C8 (amended): whenever a user-specified reference asset `s` is present,
the coverage percent is positive, and at least one other reference image
exists in the pool, the allocation assigns `s` to exactly the first
`coverageGroups = max(1, ceil(group_count * coverage/100))` groups — group
`i` receives `s` iff `i < coverageGroups` — and this count is at least 1;
with `coverage_percent = 34` and `group_count = 5` it is exactly 2. -/
theorem coverage_pin_exact (refs : List String) (gc cov_pct : ℕ) (s : String)
    (hother : ∃ r ∈ refs, r ≠ s) (hcov : 0 < cov_pct) (i : ℕ) (hi : i < gc) :
    1 ≤ coverageGroups (some s) gc cov_pct ∧
    coverageGroups (some "x") 5 34 = 2 ∧
    ((allocate_references_for_groups refs gc (some s) cov_pct).get? i = some (some s) ↔
      i < coverageGroups (some s) gc cov_pct) := by
  refine ⟨?_, ?_, ?_⟩
  · simp only [coverageGroups, if_pos (⟨rfl, hcov⟩ : (some s).isSome = true ∧ 0 < cov_pct)]
    exact le_max_left _ _
  · simp only [coverageGroups]
    norm_num
    rw [show ⌈(17 / 10 : ℚ)⌉ = 2 from by norm_num [Int.ceil_eq_iff]]
    rfl
  · obtain ⟨r0, hr0mem, hr0ne⟩ := hother
    have hr0ord : r0 ∈ refs.filter (fun r => r != s) :=
      List.mem_filter.mpr ⟨hr0mem, by simpa using hr0ne⟩
    have hordne : refs.filter (fun r => r != s) ≠ [] := List.ne_nil_of_mem hr0ord
    have hmem_ne : ∀ x ∈ refs.filter (fun r => r != s), x ≠ s := by
      intro x hx
      simpa using (List.mem_filter.mp hx).2
    obtain ⟨v, hv, hpin, hnopin⟩ :=
      allocRefsAux_get (refs.filter (fun r => r != s)) s
        (coverageGroups (some s) gc cov_pct) hordne gc 0 0 [] i hi
    simp only [List.length_nil, Nat.zero_add] at hv hpin hnopin
    simp only [allocate_references_for_groups]
    constructor
    · intro h
      by_contra hni
      obtain ⟨r, hrmem, hvr⟩ := hnopin hni
      rw [hv, hvr] at h
      exact hmem_ne r hrmem (Option.some.inj (Option.some.inj h))
    · intro hic
      rw [hv, hpin hic]

/-- Witness for C8 at `refs = [a, b, c]`, `group_count = 5`,
`coverage_percent = 34`, queried at group index 1 (covered). -/
theorem coverage_pin_exact_witness :
    1 ≤ coverageGroups (some "a") 5 34 ∧
    coverageGroups (some "x") 5 34 = 2 ∧
    ((allocate_references_for_groups ["a", "b", "c"] 5 (some "a") 34).get? 1 =
        some (some "a") ↔
      1 < coverageGroups (some "a") 5 34) :=
  coverage_pin_exact ["a", "b", "c"] 5 34 "a"
    ⟨"b", by decide, by decide⟩ (by decide) 1 (by decide)

/-! ### Upload cache lemmas -/

lemma alistLookup_append (m : List (String × String)) (a b : String) (k : String) :
    alistLookup (m ++ [(a, b)]) k =
      match alistLookup m k with
      | some u => some u
      | none => if k = a then some b else none := by
  induction m with
  | nil =>
    simp only [alistLookup, List.nil_append, List.find?]
    by_cases h : k = a
    · subst h; simp
    · have : (a == k) = false := by simpa using fun he => h he.symm
      simp [this, h]
  | cons p rest ih =>
    simp only [alistLookup, List.cons_append, List.find?] at ih ⊢
    by_cases hp : (p.1 == k) = true
    · simp [hp]
    · simp only [Bool.not_eq_true] at hp
      simp only [hp]
      exact ih

lemma uploadImagesAux_inv (uploader : String → UploadResult) :
    ∀ (keys : List String) (st : UpState),
      st.netCalls.Nodup →
      (∀ k, k ∈ st.netCalls ↔ (alistLookup st.uploaded_urls k).isSome) →
      (∀ k u, alistLookup st.uploaded_urls k = some u → u = (uploader k).url) →
      (uploadImagesAux uploader st keys).1.netCalls.Nodup ∧
      (∀ p ∈ (uploadImagesAux uploader st keys).2.1, p.2 = (uploader p.1).url) := by
  intro keys
  induction keys with
  | nil =>
    intro st h1 h2 h3
    exact ⟨h1, by simp [uploadImagesAux]⟩
  | cons key rest ih =>
    intro st h1 h2 h3
    cases hl : alistLookup st.uploaded_urls key with
    | some url =>
      obtain ⟨ih1, ih2⟩ := ih st h1 h2 h3
      simp only [uploadImagesAux, hl]
      refine ⟨ih1, ?_⟩
      intro p hp
      simp only [List.mem_cons] at hp
      rcases hp with rfl | hp
      · exact h3 key url hl
      · exact ih2 p hp
    | none =>
      have hnot : key ∉ st.netCalls := by
        rw [h2 key, hl]
        simp
      have h1' : (st.netCalls ++ [key]).Nodup := by
        rw [List.nodup_append]
        exact ⟨h1, List.nodup_singleton key, by simpa [List.disjoint_singleton] using hnot⟩
      have h2' : ∀ k, k ∈ st.netCalls ++ [key] ↔
          (alistLookup (st.uploaded_urls ++ [(key, (uploader key).url)]) k).isSome := by
        intro k
        rw [alistLookup_append]
        cases hk : alistLookup st.uploaded_urls k with
        | some u =>
          simp only [List.mem_append]
          constructor
          · intro _; rfl
          · intro _; exact Or.inl ((h2 k).mpr (by rw [hk]; rfl))
        | none =>
          simp only [List.mem_append, List.mem_singleton]
          constructor
          · intro h
            rcases h with h | rfl
            · exact absurd ((h2 k).mp h) (by rw [hk]; simp)
            · simp
          · intro h
            by_cases hka : k = key
            · exact Or.inr hka
            · rw [if_neg hka] at h
              cases h
      have h3' : ∀ k u,
          alistLookup (st.uploaded_urls ++ [(key, (uploader key).url)]) k = some u →
          u = (uploader k).url := by
        intro k u hu
        rw [alistLookup_append] at hu
        cases hk : alistLookup st.uploaded_urls k with
        | some w =>
          rw [hk] at hu
          have := h3 k w hk
          simp only [Option.some.injEq] at hu
          rw [← hu]
          exact this
        | none =>
          rw [hk] at hu
          by_cases hka : k = key
          · subst hka; rw [if_pos rfl] at hu; cases hu; rfl
          · rw [if_neg hka] at hu; cases hu
      obtain ⟨ih1, ih2⟩ := ih
        { uploaded_urls := st.uploaded_urls ++ [(key, (uploader key).url)]
          uploaded_moss_ids := st.uploaded_moss_ids ++ [(key, (uploader key).moss_id)]
          netCalls := st.netCalls ++ [key] } h1' h2' h3'
      simp only [uploadImagesAux, hl]
      refine ⟨ih1, ?_⟩
      intro p hp
      simp only [List.mem_cons] at hp
      rcases hp with rfl | hp
      · rfl
      · exact ih2 p hp

/-- C4: in any run (any serialization of concurrent `_upload_images` calls,
i.e. any global request sequence `keys`), each distinct resolved path is
uploaded over the network at most once, and every caller requesting a path
receives exactly the uploader's URL for that path — the same cached URL for
every repeat request. -/
theorem upload_memoization (uploader : String → UploadResult) (keys : List String)
    (k : String) :
    (upload_images uploader keys).1.netCalls.count k ≤ 1 ∧
    ∀ p ∈ (upload_images uploader keys).2.1, p.2 = (uploader p.1).url := by
  have h := uploadImagesAux_inv uploader keys ⟨[], [], []⟩ (by simp)
    (by intro k'; simp [alistLookup]) (by intro k' u hu; simp [alistLookup] at hu)
  exact ⟨List.nodup_iff_count_le_one.mp h.1 k, h.2⟩

/-- Witness for C4: the path `"p"` requested three times (twice for `"p"`,
once for `"q"`) is uploaded once and both callers for `"p"` get the
uploader's URL `"up"`. -/
theorem upload_memoization_witness :
    ("p", "up") ∈
      (upload_images (fun k => ⟨"u" ++ k, "m" ++ k⟩) ["p", "p", "q"]).2.1 ∧
    ("p", "up").2 = ((fun k => (⟨"u" ++ k, "m" ++ k⟩ : UploadResult)) "p").url ∧
    (upload_images (fun k => ⟨"u" ++ k, "m" ++ k⟩) ["p", "p", "q"]).1.netCalls.count "p" ≤ 1 := by
  have hmem : ("p", "up") ∈
      (upload_images (fun k => ⟨"u" ++ k, "m" ++ k⟩) ["p", "p", "q"]).2.1 := by decide
  exact ⟨hmem,
    (upload_memoization (fun k => ⟨"u" ++ k, "m" ++ k⟩) ["p", "p", "q"] "p").2 _ hmem,
    (upload_memoization (fun k => ⟨"u" ++ k, "m" ++ k⟩) ["p", "p", "q"] "p").1⟩

lemma lockDepthAt_cons3 (a x r : UpEvent) (evs : List UpEvent) (m : ℕ)
    (ha : a = UpEvent.lockAcquire) (hr : r = UpEvent.lockRelease)
    (hx1 : x ≠ UpEvent.lockAcquire) (hx2 : x ≠ UpEvent.lockRelease) :
    lockDepthAt (a :: x :: r :: evs) (m + 3) = lockDepthAt evs m := by
  subst ha hr
  simp only [lockDepthAt, List.take_succ_cons, List.count_cons]
  have hx1' : (x == UpEvent.lockAcquire) = false := by simpa using hx1
  have hx2' : (x == UpEvent.lockRelease) = false := by simpa using hx2
  simp [hx1', hx2']

/-- C9 counterexample: for a fresh (uncached) path, the event trace of
`_upload_images` is lock-acquire, network upload, lock-release — the network
upload call happens at depth 1 *inside* the `_upload_lock` critical section,
not outside it: uploads of distinct new keys by different threads are
serialized by the cache lock. -/
theorem upload_network_call_not_outside_lock :
    (upload_images (fun k => ⟨"u" ++ k, "m" ++ k⟩) ["p"]).2.2 =
      [UpEvent.lockAcquire, UpEvent.netUpload "p", UpEvent.lockRelease] ∧
    lockDepthAt (upload_images (fun k => ⟨"u" ++ k, "m" ++ k⟩) ["p"]).2.2 1 = 1 := by
  exact ⟨rfl, rfl⟩

/-- C9 (amended): in every run of `_upload_images`, every network upload call
for a new key occurs while `_upload_lock` is held (lock depth 1), inside the
same critical section as the cache check-then-insert — the check-then-insert
for a given key is atomic, and uploads of distinct new keys are serialized by
the lock rather than performed outside it. -/
theorem upload_network_call_inside_lock (uploader : String → UploadResult)
    (st : UpState) (keys : List String) (i : ℕ) (k : String)
    (h : ((uploadImagesAux uploader st keys).2.2).get? i = some (UpEvent.netUpload k)) :
    lockDepthAt (uploadImagesAux uploader st keys).2.2 i = 1 := by
  induction keys generalizing st i with
  | nil => simp [uploadImagesAux] at h
  | cons key rest ih =>
    cases hl : alistLookup st.uploaded_urls key with
    | some url =>
      simp only [uploadImagesAux, hl, List.cons_append, List.nil_append] at h ⊢
      match i, h with
      | 0, h => simp at h
      | 1, h => simp at h
      | 2, h => simp at h
      | m + 3, h =>
        rw [lockDepthAt_cons3 _ _ _ _ m rfl rfl (by simp) (by simp)]
        exact ih _ m h
    | none =>
      simp only [uploadImagesAux, hl, List.cons_append, List.nil_append] at h ⊢
      match i, h with
      | 0, h => simp at h
      | 1, h => rfl
      | 2, h => simp at h
      | m + 3, h =>
        rw [lockDepthAt_cons3 _ _ _ _ m rfl rfl (by simp) (by simp)]
        exact ih _ m h

/-- Witness for C9 at the single fresh path `"p"`. -/
theorem upload_network_call_inside_lock_witness :
    ((uploadImagesAux (fun k => ⟨"u" ++ k, "m" ++ k⟩) ⟨[], [], []⟩ ["p"]).2.2).get? 1 =
      some (UpEvent.netUpload "p") ∧
    lockDepthAt (uploadImagesAux (fun k => ⟨"u" ++ k, "m" ++ k⟩) ⟨[], [], []⟩ ["p"]).2.2 1 = 1 :=
  ⟨rfl, upload_network_call_inside_lock (fun k => ⟨"u" ++ k, "m" ++ k⟩) ⟨[], [], []⟩
    ["p"] 1 "p" rfl⟩

/-! ### Scene-allocation lemmas -/

lemma pychoice_spec (l : List PromptItem) (n : ℕ) (hne : l ≠ []) :
    ∃ p, pychoice l n = some p ∧ p ∈ l := by
  have hlt : n % l.length < l.length := Nat.mod_lt _ (List.length_pos.mpr hne)
  exact ⟨l.get ⟨n % l.length, hlt⟩, List.get?_eq_get hlt, List.get_mem l _ _⟩

lemma isEmpty_false_iff (l : List PromptItem) : l.isEmpty = false ↔ l ≠ [] := by
  cases l <;> simp

lemma filter_ne_prev_ne_nil (prompts : List PromptItem)
    (hnd : (prompts.map PromptItem.id).Nodup) (hlen : 2 ≤ prompts.length)
    (x : String) : prompts.filter (fun p => p.id != x) ≠ [] := by
  match prompts, hlen with
  | p0 :: p1 :: rest, _ =>
    have hne : p0.id ≠ p1.id := by
      simp only [List.map_cons, List.nodup_cons, List.mem_cons] at hnd
      exact fun h => hnd.1 (Or.inl h)
    by_cases h0 : p0.id = x
    · have h1 : p1.id ≠ x := fun h1 => hne (h0.trans h1.symm)
      intro hnil
      have : p1 ∈ List.filter (fun p => p.id != x) (p0 :: p1 :: rest) :=
        List.mem_filter.mpr ⟨by simp, by simpa using h1⟩
      rw [hnil] at this
      cases this
    · intro hnil
      have : p0 ∈ List.filter (fun p => p.id != x) (p0 :: p1 :: rest) :=
        List.mem_filter.mpr ⟨by simp, by simpa using h0⟩
      rw [hnil] at this
      cases this

lemma mem_available_id_not_used (prompts : List PromptItem) (used : List String)
    (p : PromptItem) (hp : p ∈ prompts.filter (fun q => ! used.contains q.id)) :
    p.id ∉ used := by
  have h2 := (List.mem_filter.mp hp).2
  intro hmem
  simp only [Bool.not_eq_true'] at h2
  rw [List.contains_eq_any_beq] at h2
  have h3 : ∀ x ∈ used, ¬ p.id = x := by simpa using h2
  exact h3 p.id hmem rfl

lemma sceneSelect_some_of_prev (prompts : List PromptItem) (rnd : ℕ → ℕ)
    (hnd : (prompts.map PromptItem.id).Nodup) (hlen : 2 ≤ prompts.length)
    (cnt : ℕ) (used : List String) (prev : PromptItem) (hprev : prev.id ∈ used) :
    ∃ s cnt', sceneSelect prompts rnd cnt used (some prev) = (some s, cnt') ∧
      s.id ≠ prev.id := by
  simp only [sceneSelect]
  by_cases hav : (prompts.filter (fun p => ! used.contains p.id)).isEmpty
  · rw [if_pos hav]
    have hgt : prompts.length > 1 := by omega
    rw [if_pos hgt]
    have hdne : prompts.filter (fun p => p.id != prev.id) ≠ [] :=
      filter_ne_prev_ne_nil prompts hnd hlen prev.id
    have hdne' : (prompts.filter (fun p => p.id != prev.id)).isEmpty = false :=
      (isEmpty_false_iff _).mpr hdne
    rw [hdne']
    simp only [Bool.false_eq_true, if_false]
    obtain ⟨s, hs, hsmem⟩ := pychoice_spec _ (rnd cnt) hdne
    refine ⟨s, cnt + 1, by rw [hs], ?_⟩
    have := (List.mem_filter.mp hsmem).2
    simpa using this
  · rw [if_neg hav]
    have havne : prompts.filter (fun p => ! used.contains p.id) ≠ [] := by
      intro h
      rw [h] at hav
      exact hav rfl
    by_cases hd : ((prompts.filter (fun p => ! used.contains p.id)).filter
        (fun p => p.id != prev.id)).isEmpty
    · rw [if_pos hd]
      obtain ⟨s, hs, hsmem⟩ := pychoice_spec _ (rnd cnt) havne
      refine ⟨s, cnt + 1, by rw [hs], ?_⟩
      intro heq
      exact mem_available_id_not_used prompts used s hsmem (heq ▸ hprev)
    · rw [if_neg hd]
      have hdne : (prompts.filter (fun p => ! used.contains p.id)).filter
          (fun p => p.id != prev.id) ≠ [] := by
        intro h
        rw [h] at hd
        exact hd rfl
      obtain ⟨s, hs, hsmem⟩ := pychoice_spec _ (rnd cnt) hdne
      refine ⟨s, cnt + 1, by rw [hs], ?_⟩
      have := (List.mem_filter.mp hsmem).2
      simpa using this

lemma sceneSelect_some_of_none (prompts : List PromptItem) (rnd : ℕ → ℕ)
    (hlen : 2 ≤ prompts.length) (cnt : ℕ) (used : List String) :
    ∃ s cnt', sceneSelect prompts rnd cnt used none = (some s, cnt') := by
  have hpne : prompts ≠ [] := by
    intro h
    rw [h] at hlen
    simp at hlen
  have hpe : prompts.isEmpty = false := (isEmpty_false_iff _).mpr hpne
  simp only [sceneSelect]
  by_cases hav : (prompts.filter (fun p => ! used.contains p.id)).isEmpty
  · rw [if_pos hav, hpe]
    simp only [Bool.false_eq_true, if_false]
    obtain ⟨s, hs, _⟩ := pychoice_spec prompts (rnd cnt) hpne
    exact ⟨s, cnt + 1, by rw [hs]⟩
  · rw [if_neg hav]
    have havne : prompts.filter (fun p => ! used.contains p.id) ≠ [] := by
      intro h
      rw [h] at hav
      exact hav rfl
    obtain ⟨s, hs, _⟩ := pychoice_spec _ (rnd cnt) havne
    exact ⟨s, cnt + 1, by rw [hs]⟩

lemma allocSceneAux_spec (prompts : List PromptItem) (rnd : ℕ → ℕ)
    (hnd : (prompts.map PromptItem.id).Nodup) (hlen : 2 ≤ prompts.length) :
    ∀ (g i cnt : ℕ) (used : List String) (acc : List (Option PromptItem)),
      (∀ x ∈ acc, x.isSome) →
      acc.Chain' (fun a b => Option.map PromptItem.id a ≠ Option.map PromptItem.id b) →
      (∀ prev, acc.headI = some prev → prev.id ∈ used) →
      (allocSceneAux prompts [] rnd g i cnt used acc).length = g + acc.length ∧
      (∀ x ∈ allocSceneAux prompts [] rnd g i cnt used acc, x.isSome) ∧
      (allocSceneAux prompts [] rnd g i cnt used acc).Chain'
        (fun a b => Option.map PromptItem.id a ≠ Option.map PromptItem.id b) := by
  intro g
  induction g with
  | zero =>
    intro i cnt used acc h1 h2 _
    refine ⟨by simp [allocSceneAux], ?_, ?_⟩
    · intro x hx
      exact h1 x (List.mem_reverse.mp (by simpa [allocSceneAux] using hx))
    · simp only [allocSceneAux]
      rw [List.chain'_reverse]
      exact h2.imp (fun a b h => Ne.symm h)
  | succ g ih =>
    intro i cnt used acc h1 h2 h3
    cases acc with
    | nil =>
      obtain ⟨s, cnt', hsel⟩ := sceneSelect_some_of_none prompts rnd hlen cnt used
      have hred : allocSceneAux prompts [] rnd (g + 1) i cnt used [] =
          allocSceneAux prompts [] rnd g (i + 1) cnt' (s.id :: used) [some s] := by
        simp only [allocSceneAux, List.headI,
          show (default : Option PromptItem) = none from rfl]
        rw [dif_neg (by simp), hsel]
      rw [hred]
      obtain ⟨l1, l2, l3⟩ := ih (i + 1) cnt' (s.id :: used) [some s]
        (by intro x hx; simp at hx; simp [hx])
        (List.chain'_singleton _)
        (by intro prev hprev; simp only [List.headI] at hprev; cases hprev; simp)
      refine ⟨by rw [l1]; simp, l2, l3⟩
    | cons a acc' =>
      obtain ⟨prev, rfl⟩ : ∃ prev, a = some prev := by
        have := h1 a (List.mem_cons_self a acc')
        exact Option.isSome_iff_exists.mp this
      have hprev : prev.id ∈ used := h3 prev rfl
      obtain ⟨s, cnt', hsel, hne⟩ :=
        sceneSelect_some_of_prev prompts rnd hnd hlen cnt used prev hprev
      have hred : allocSceneAux prompts [] rnd (g + 1) i cnt used (some prev :: acc') =
          allocSceneAux prompts [] rnd g (i + 1) cnt' (s.id :: used)
            (some s :: some prev :: acc') := by
        simp only [allocSceneAux, List.headI]
        rw [dif_neg (by simp), hsel]
      rw [hred]
      obtain ⟨l1, l2, l3⟩ := ih (i + 1) cnt' (s.id :: used) (some s :: some prev :: acc')
        (by
          intro x hx
          rcases List.mem_cons.mp hx with rfl | hx'
          · rfl
          · exact h1 x hx')
        (by
          rw [List.chain'_cons]
          exact ⟨by simpa using hne, h2⟩)
        (by intro q hq; simp only [List.headI] at hq; cases hq; simp)
      refine ⟨by rw [l1]; simp; omega, l2, l3⟩

/-- C7 counterexample: a pool of two prompts that are the same prompt (equal
id `"x"`), `group_count = 3 >` pool size, no user-specified prompts: every
group receives the prompt with id `"x"`, so adjacent groups receive the same
prompt — refuting the claim for pools of "at least two prompts" when the
prompts do not have distinct ids. -/
theorem scene_adjacency_fails_duplicate_ids :
    allocate_scene_prompts [⟨"x"⟩, ⟨"x"⟩] [] (fun _ => 0) 3 =
      [some ⟨"x"⟩, some ⟨"x"⟩, some ⟨"x"⟩] ∧
    ([(⟨"x"⟩ : PromptItem), ⟨"x"⟩] : List PromptItem).length < 3 :=
  ⟨rfl, by decide⟩

/-- C7 (amended): in scene mode with no user-specified prompts and a pool of
at least two prompts *with pairwise-distinct ids*, for every `group_count`
greater than the pool size and every outcome of the random choices, every
group is assigned a non-null prompt and no two adjacent groups receive the
same prompt (their ids differ). -/
theorem scene_adjacency_distinct_ids (prompts : List PromptItem) (rnd : ℕ → ℕ)
    (gc : ℕ) (hnd : (prompts.map PromptItem.id).Nodup) (hlen : 2 ≤ prompts.length)
    (_hgc : prompts.length < gc) :
    (allocate_scene_prompts prompts [] rnd gc).length = gc ∧
    (∀ x ∈ allocate_scene_prompts prompts [] rnd gc, x.isSome) ∧
    (allocate_scene_prompts prompts [] rnd gc).Chain'
      (fun a b => Option.map PromptItem.id a ≠ Option.map PromptItem.id b) := by
  have h := allocSceneAux_spec prompts rnd hnd hlen gc 0 0 [] []
    (by intro x hx; cases hx) List.chain'_nil (by intro prev hprev; cases hprev)
  exact ⟨by simpa [allocate_scene_prompts] using h.1,
    by simpa [allocate_scene_prompts] using h.2.1,
    by simpa [allocate_scene_prompts] using h.2.2⟩

/-- Witness for C7 with pool ids `a, b`, `group_count = 5`, and the identity
random oracle. -/
theorem scene_adjacency_distinct_ids_witness :
    (allocate_scene_prompts [⟨"a"⟩, ⟨"b"⟩] [] (fun n => n) 5).length = 5 ∧
    (∀ x ∈ allocate_scene_prompts [⟨"a"⟩, ⟨"b"⟩] [] (fun n => n) 5, x.isSome) ∧
    (allocate_scene_prompts [⟨"a"⟩, ⟨"b"⟩] [] (fun n => n) 5).Chain'
      (fun a b => Option.map PromptItem.id a ≠ Option.map PromptItem.id b) :=
  scene_adjacency_distinct_ids [⟨"a"⟩, ⟨"b"⟩] (fun n => n) 5
    (by decide) (by decide) (by decide)

/-! ### RateLimiter lemmas -/

lemma length_filter_mono {α : Type} (p q : α → Bool) :
    ∀ (l : List α), (∀ x ∈ l, p x = true → q x = true) →
      (l.filter p).length ≤ (l.filter q).length := by
  intro l
  induction l with
  | nil => intro _; simp
  | cons a l ih =>
    intro h
    have hl := ih (fun x hx => h x (List.mem_cons_of_mem a hx))
    by_cases hpa : p a = true
    · have hqa := h a (List.mem_cons_self a l) hpa
      rw [List.filter_cons_of_pos hpa, List.filter_cons_of_pos hqa]
      simpa using hl
    · rw [List.filter_cons_of_neg (by simpa using hpa)]
      by_cases hqa : q a = true
      · rw [List.filter_cons_of_pos hqa]
        simp only [List.length_cons]
        omega
      · rw [List.filter_cons_of_neg (by simpa using hqa)]
        exact hl

lemma exists_last_satisfying {α : Type} (p : α → Bool) :
    ∀ (l : List α), l.filter p ≠ [] →
      ∃ l₁ a l₂, l = l₁ ++ a :: l₂ ∧ p a = true ∧ ∀ x ∈ l₂, p x = false := by
  intro l
  induction l with
  | nil => intro h; simp at h
  | cons b l ih =>
    intro h
    by_cases hl : l.filter p = []
    · have hpb : p b = true := by
        by_contra hpb
        rw [List.filter_cons_of_neg (by simpa using hpb), hl] at h
        exact h rfl
      refine ⟨[], b, l, rfl, hpb, ?_⟩
      intro x hx
      have := (List.filter_eq_nil.mp hl) x hx
      simpa using this
    · obtain ⟨l₁, a, l₂, heq, hpa, hrest⟩ := ih hl
      exact ⟨b :: l₁, a, l₂, by rw [heq]; rfl, hpa, hrest⟩

lemma prune_filter (rl : RateLimiter) (H : List ℚ) (prev now : ℚ) (hpn : prev ≤ now) :
    rl.prune now (H.filter (fun x => decide (prev - x < rl.time_window))) =
      H.filter (fun x => decide (now - x < rl.time_window)) := by
  simp only [RateLimiter.prune, List.filter_filter]
  apply List.filter_congr
  intro x _
  by_cases hn : now - x < rl.time_window
  · have hp : prev - x < rl.time_window := lt_of_le_of_lt (by linarith) hn
    simp [hn, hp]
  · simp [hn]

/-- Invariant of the serialized check-event sequence: starting from a
`requests` list holding exactly the earlier admissions `H` still inside
`prev`'s window, the produced admission list is sorted, consists of event
times, and at each admission at time `a`, the earlier admissions (`H` and
the ones made during `times`) lying inside `a`'s trailing window numbered
fewer than `max_requests`. -/
lemma admissionsAux_spec (rl : RateLimiter) (hw : 0 < rl.time_window) :
    ∀ (times H : List ℚ) (prev : ℚ),
      times.Sorted (· ≤ ·) →
      (∀ t ∈ times, prev ≤ t) →
      (∀ x ∈ H, x ≤ prev) →
      (rl.admissionsAux (H.filter (fun x => decide (prev - x < rl.time_window)))
          times).Sorted (· ≤ ·) ∧
      (∀ a ∈ rl.admissionsAux (H.filter (fun x => decide (prev - x < rl.time_window)))
          times, a ∈ times) ∧
      (∀ A₁ a A₂,
        rl.admissionsAux (H.filter (fun x => decide (prev - x < rl.time_window))) times =
          A₁ ++ a :: A₂ →
        ((H ++ A₁).filter (fun x => decide (a - x < rl.time_window))).length <
          rl.max_requests) := by
  intro times
  induction times with
  | nil =>
    intro H prev _ _ _
    refine ⟨by simp [RateLimiter.admissionsAux], by simp [RateLimiter.admissionsAux], ?_⟩
    intro A₁ a A₂ h
    simp only [RateLimiter.admissionsAux] at h
    exact absurd h.symm (List.append_ne_nil_of_right_ne_nil A₁ (List.cons_ne_nil a A₂))
  | cons now rest ih =>
    intro H prev hsorted hprevle hH
    have hpn : prev ≤ now := hprevle now (List.mem_cons_self now rest)
    have hrest_sorted : rest.Sorted (· ≤ ·) := (List.sorted_cons.mp hsorted).2
    have hrest_ge : ∀ t ∈ rest, now ≤ t := (List.sorted_cons.mp hsorted).1
    have hprune : rl.prune now (H.filter (fun x => decide (prev - x < rl.time_window))) =
        H.filter (fun x => decide (now - x < rl.time_window)) :=
      prune_filter rl H prev now hpn
    by_cases hfull :
        (rl.prune now (H.filter (fun x => decide (prev - x < rl.time_window)))).length <
          rl.max_requests
    · -- admitted
      have hcheck : rl.acquireCheck (H.filter (fun x => decide (prev - x < rl.time_window)))
          now = (H.filter (fun x => decide (now - x < rl.time_window)) ++ [now], true, 0) := by
        simp only [RateLimiter.acquireCheck]
        rw [if_pos hfull, hprune]
      have hstep : rl.admissionsAux
            (H.filter (fun x => decide (prev - x < rl.time_window))) (now :: rest) =
          now :: rl.admissionsAux
            (H.filter (fun x => decide (now - x < rl.time_window)) ++ [now]) rest := by
        simp [RateLimiter.admissionsAux, hcheck]
      have hdec : decide (now - now < rl.time_window) = true :=
        decide_eq_true (by rwa [sub_self])
      have hHnow : H.filter (fun x => decide (now - x < rl.time_window)) ++ [now] =
          (H ++ [now]).filter (fun x => decide (now - x < rl.time_window)) := by
        rw [List.filter_append]
        congr 1
        simp [List.filter_singleton, hdec, decide_eq_true hw]
      obtain ⟨ihs, ihm, ihsplit⟩ := ih (H ++ [now]) now hrest_sorted hrest_ge
        (by
          intro x hx
          rcases List.mem_append.mp hx with hx' | hx'
          · exact le_trans (hH x hx') hpn
          · rw [List.mem_singleton.mp hx'])
      rw [← hHnow] at ihs ihm ihsplit
      refine ⟨?_, ?_, ?_⟩
      · rw [hstep, List.sorted_cons]
        exact ⟨fun b hb => hrest_ge b (ihm b hb), ihs⟩
      · rw [hstep]
        intro a ha
        rcases List.mem_cons.mp ha with rfl | ha'
        · exact List.mem_cons_self a rest
        · exact List.mem_cons_of_mem now (ihm a ha')
      · rw [hstep]
        intro A₁ a A₂ heq
        cases A₁ with
        | nil =>
          simp only [List.nil_append] at heq
          injection heq with h1 h2
          subst h1
          simpa [hprune] using hfull
        | cons b A₁' =>
          simp only [List.cons_append, List.cons.injEq] at heq
          obtain ⟨rfl, heq'⟩ := heq
          have := ihsplit A₁' a A₂ heq'
          rw [List.append_assoc] at this
          simpa using this
    · -- window full: no admission at this event
      have hcheck : rl.acquireCheck (H.filter (fun x => decide (prev - x < rl.time_window)))
          now = (H.filter (fun x => decide (now - x < rl.time_window)), false,
            rl.time_window -
              (now - (H.filter (fun x => decide (now - x < rl.time_window))).headI) +
              1 / 10) := by
        simp only [RateLimiter.acquireCheck]
        rw [if_neg hfull, hprune]
      have hstep : rl.admissionsAux
            (H.filter (fun x => decide (prev - x < rl.time_window))) (now :: rest) =
          rl.admissionsAux (H.filter (fun x => decide (now - x < rl.time_window))) rest := by
        simp [RateLimiter.admissionsAux, hcheck]
      obtain ⟨ihs, ihm, ihsplit⟩ := ih H now hrest_sorted hrest_ge
        (fun x hx => le_trans (hH x hx) hpn)
      refine ⟨?_, ?_, ?_⟩
      · rw [hstep]; exact ihs
      · rw [hstep]
        intro a ha
        exact List.mem_cons_of_mem now (ihm a ha)
      · rw [hstep]
        exact ihsplit

/-- C3: serializing any number of concurrently calling threads into the
ordered sequence of their lock-protected check events (with non-decreasing
observed clock values), at most `max_requests` admissions are recorded
inside any trailing interval `(T - time_window, T]`; and a caller whose
check finds the window full is not admitted and computes the sleep
`time_window - (now - oldest) + 0.1` (after which, per `admissionsAux`, it
re-enters the event sequence and the whole condition is re-checked). -/
theorem rateLimiter_admission_bound (rl : RateLimiter) (times : List ℚ) (T : ℚ)
    (hw : 0 < rl.time_window) (hmono : times.Sorted (· ≤ ·)) :
    ((rl.admissions times).filter
        (fun t => decide (T - rl.time_window < t ∧ t ≤ T))).length ≤ rl.max_requests ∧
    ∀ (reqs : List ℚ) (now : ℚ), (rl.acquireCheck reqs now).2.1 = false →
      (rl.acquireCheck reqs now).2.2 =
        rl.time_window - (now - (rl.prune now reqs).headI) + 1 / 10 := by
  constructor
  · cases times with
    | nil => simp [RateLimiter.admissions, RateLimiter.admissionsAux]
    | cons t0 rest =>
      have hprevle : ∀ t ∈ t0 :: rest, t0 ≤ t := by
        intro t ht
        rcases List.mem_cons.mp ht with rfl | ht'
        · exact le_refl t
        · exact (List.sorted_cons.mp hmono).1 t ht'
      obtain ⟨hs, _, hsplit⟩ := admissionsAux_spec rl hw (t0 :: rest) [] t0 hmono hprevle
        (by intro x hx; cases hx)
      simp only [List.filter_nil] at hs hsplit
      have hAdef : rl.admissions (t0 :: rest) = rl.admissionsAux [] (t0 :: rest) := rfl
      rw [hAdef]
      by_cases hF : (rl.admissionsAux [] (t0 :: rest)).filter
          (fun t => decide (T - rl.time_window < t ∧ t ≤ T)) = []
      · rw [hF]
        simp
      · obtain ⟨A₁, a, A₂, hsplit_eq, hpa, hA₂⟩ :=
          exists_last_satisfying (fun t => decide (T - rl.time_window < t ∧ t ≤ T)) _ hF
        have haT : T - rl.time_window < a ∧ a ≤ T := of_decide_eq_true hpa
        have hA1le : ∀ x ∈ A₁, x ≤ a := by
          have hs' := hs
          rw [hsplit_eq] at hs'
          have h3 := (List.pairwise_append.mp hs').2.2
          intro x hx
          exact h3 x hx a (List.mem_cons_self a A₂)
        have hlt : (A₁.filter (fun x => decide (a - x < rl.time_window))).length <
            rl.max_requests := by
          have := hsplit A₁ a A₂ hsplit_eq
          simpa using this
        have hmon : (A₁.filter (fun t => decide (T - rl.time_window < t ∧ t ≤ T))).length ≤
            (A₁.filter (fun x => decide (a - x < rl.time_window))).length := by
          apply length_filter_mono
          intro x hx hpx
          have hx' := of_decide_eq_true hpx
          exact decide_eq_true (by linarith [hx'.1, haT.2])
        have hA2f : A₂.filter (fun t => decide (T - rl.time_window < t ∧ t ≤ T)) = [] :=
          List.filter_eq_nil.mpr (fun x hx => by simp [hA₂ x hx])
        rw [hsplit_eq, List.filter_append]
        simp only [List.filter_cons, hpa, if_true, hA2f, List.length_append,
          List.length_cons, List.length_nil]
        omega
  · intro reqs now h
    by_cases hfull : (rl.prune now reqs).length < rl.max_requests
    · exfalso
      simp only [RateLimiter.acquireCheck, if_pos hfull] at h
      cases h
    · simp only [RateLimiter.acquireCheck, if_neg hfull]

/-- Witness for C3: limiter of 2 requests per 10-second window, four check
events at times 0, 1, 2, 3, window queried at `T = 5`. -/
theorem rateLimiter_admission_bound_witness :
    (0 : ℚ) < (RateLimiter.mk 2 10).time_window ∧
    ((RateLimiter.admissions ⟨2, 10⟩ [0, 1, 2, 3]).filter
        (fun t => decide ((5 : ℚ) - (RateLimiter.mk 2 10).time_window < t ∧ t ≤ 5))).length ≤
      (RateLimiter.mk 2 10).max_requests := by
  have h := rateLimiter_admission_bound ⟨2, 10⟩ [0, 1, 2, 3] 5 (by decide) (by decide)
  exact ⟨by decide, h.1⟩
